import Mathlib

/-!
ScoutString: path sanitisation and decomposition.

A shallow embedding of `Include/Scout/String.h` and `Src/Path.cpp`.

* A `std::string` is a list of bytes (`Fin 256`).
* `char` is the signed 8-bit type of every WIN32 target, the only platform on
  which the body of `SanitizeAbsolutePath` is compiled: a byte `b` read as a
  `char` has the value `charVal b`, between -128 and 127.
* `throw std::runtime_error(...)` becomes `Except.error` with one error kind
  per throw site.
* The preprocessor branch `#ifdef WIN32 / #elif __linux__` becomes an explicit
  `Platform` argument.
-/

set_option linter.dupNamespace false
set_option maxRecDepth 8000

namespace Scout

/-- One element of a `std::string`. -/
abbrev Byte := Fin 256

/-- A `std::string` / `std::string_view`. -/
abbrev Str := List Byte

/-- Value of a byte read through the signed 8-bit `char` type, as the integer
to which it is promoted in a comparison or in arithmetic. -/
def charVal (c : Byte) : Int :=
  if c.val < 128 then (c.val : Int) else (c.val : Int) - 256

/-- Conversion of an `int` back to `char` (wraps modulo 2^8). -/
def toChar (i : Int) : Byte := Fin.ofNat (Int.toNat (i % 256))

/-- Byte of an ASCII character literal. -/
def ofChar (c : Char) : Byte := Fin.ofNat c.toNat

/-- Bytes of an ASCII string literal. -/
def ofString (s : String) : Str := s.toList.map ofChar

/-- The character `'.'`. -/
abbrev chDot : Byte := 46
/-- The character `'/'`. -/
abbrev chSlash : Byte := 47
/-- The character `'\\'`. -/
abbrev chBackslash : Byte := 92
/-- The character `':'`. -/
abbrev chColon : Byte := 58

/-- The failures of the library, one per `throw` site (named as in the
specification's error taxonomy), plus `notImplemented` for the
`"Implement this."` stubs and `invalidRange` for the construction of a string
from an iterator pair whose first iterator lies past the second one (undefined
behaviour in the source, not an exception). -/
inductive PathError where
  | nonAsciiCharacter
  | multipleDots
  | doubledSeparator
  | relativeSyntaxPresent
  | missingDriveLetter
  | notImplemented
  | rootNotFound
  | noStemFound
  | noExtensionFound
  | invalidRange
  deriving DecidableEq, Repr

/-- The preprocessor configuration selecting the body of
`SanitizeAbsolutePath`: `WIN32` defined, else `__linux__` defined, else
neither. -/
inductive Platform where
  | win32
  | linux
  | other
  deriving DecidableEq, Repr

/-- `std::string::find(pat)`: lowest index at which `pat` occurs in `path`,
`none` for `npos`. -/
def find (pat : Str) : Str → Option Nat
  | [] => if pat = [] then some 0 else none
  | c :: cs =>
    if pat <+: c :: cs then some 0 else (find pat cs).map (· + 1)

/-- `std::replace(path.begin(), path.end(), a, b)`. -/
def replace (a b : Byte) (path : Str) : Str :=
  path.map (fun c => if c = a then b else c)

/-- `path[0]`: the first element, or the terminating null character when the
string is empty. -/
def at0 (path : Str) : Byte := path.headD 0

/-- `path[0] = v`. -/
def setAt0 (v : Byte) : Str → Str
  | [] => []
  | _ :: cs => v :: cs

/-- `path[0] >= 'A' && path[0] <= 'Z'`. -/
def isUpperLetter (c : Byte) : Bool :=
  decide (charVal c ≥ 65) && decide (charVal c ≤ 90)

/-- `path[0] >= 'a' && path[0] <= 'z'`. -/
def isLowerLetter (c : Byte) : Bool :=
  decide (charVal c ≥ 97) && decide (charVal c ≤ 122)

/-- The loop `for (const auto& c : path) if (c > 127) throw ...`: does it
throw? -/
def nonAsciiDetected (path : Str) : Bool :=
  path.any (fun c => decide (charVal c > 127))

/-- `std::count(path.begin(), path.end(), '.')`. -/
def nrOfDots (path : Str) : Nat := path.count chDot

/-- `SanitizeAbsolutePath(std::string& path)`: the string left in `path` on
normal return, or the failure thrown. -/
def SanitizeAbsolutePath (pf : Platform) (path : Str) : Except PathError Str :=
  match pf with
  | .win32 =>
    if nonAsciiDetected path then .error .nonAsciiCharacter
    else if nrOfDots path > 1 then .error .multipleDots
    else
      let path := replace chBackslash chSlash path
      if (find [chSlash, chSlash] path).isSome then .error .doubledSeparator
      else if (find [chDot, chSlash] path).isSome then .error .relativeSyntaxPresent
      else if (find [chSlash, chDot] path).isSome then .error .relativeSyntaxPresent
      else if !(isUpperLetter (at0 path) || isLowerLetter (at0 path)) then
        .error .missingDriveLetter
      else if isLowerLetter (at0 path) then
        -- path[0] += 'a' - 'A';
        .ok (setAt0 (toChar (charVal (at0 path) + (97 - 65))) path)
      else .ok path
  | .linux => .error .notImplemented
  | .other => .ok path

/-- `RelativePathFromAbsolutePath(path, rootDir)`. -/
def RelativePathFromAbsolutePath (path rootDir : Str) : Except PathError Str :=
  match find rootDir path with
  | none => .error .rootNotFound
  | some b => .ok ((path.drop b).take (path.length - b))

/-- `StemFromAbsolutePath(path)`. The iterators are kept as offsets:
`dotMatch` from the front (`path.length` for `end()`), `reverseLastSlashMatch`
from the back (`path.length` for `rend()`). The source forms
`(reverseLastSlashMatch + 1).base()` before it tests for `rend()`; that
iterator is never dereferenced, and here the offset is only formed after the
test. -/
def StemFromAbsolutePath (path : Str) : Except PathError Str :=
  let dotMatch := path.indexOf chDot
  let reverseLastSlashMatch := path.reverse.indexOf chSlash
  if dotMatch = path.length ∨ reverseLastSlashMatch = path.length then
    .error .noStemFound
  else
    -- (lastSlashMatch + 1) - path.begin()
    let b := (path.length - 1 - reverseLastSlashMatch) + 1
    let e := dotMatch
    if b ≤ e then .ok ((path.drop b).take (e - b)) else .error .invalidRange

/-- `ExtensionFromAbsolutePath(path)`. -/
def ExtensionFromAbsolutePath (path : Str) : Except PathError Str :=
  let dotMatch := path.indexOf chDot
  if dotMatch = path.length then .error .noExtensionFound
  else
    let b := dotMatch
    let e := path.length
    .ok ((path.drop b).take (e - b))

/-- The data members of `Scout::Path`. -/
structure Path where
  str_ : Str
  rootDir_ : Str
  relative_ : Str
  stem_ : Str
  extension_ : Str
  isDirectory_ : Bool
  deriving DecidableEq, Repr

/-- The constructor `Path::Path(absolutePath, rootDir)`: the object built, or
the first failure thrown. -/
def Path.Path (pf : Platform) (absolutePath rootDir : Str) : Except PathError Path :=
  match SanitizeAbsolutePath pf absolutePath with
  | .error e => .error e
  | .ok str =>
    let isDirectory := decide (absolutePath.indexOf chDot = absolutePath.length)
    match RelativePathFromAbsolutePath str rootDir with
    | .error e => .error e
    | .ok relative =>
      match StemFromAbsolutePath str with
      | .error e => .error e
      | .ok stem =>
        match ExtensionFromAbsolutePath str with
        | .error e => .error e
        | .ok extension =>
          .ok { str_ := str, rootDir_ := rootDir, relative_ := relative,
                stem_ := stem, extension_ := extension, isDirectory_ := isDirectory }

/-- The expression `absolutePath.find('.') == std::string::npos` that the
constructor stores in `isDirectory_`. -/
def isDirectoryFlag (absolutePath : Str) : Bool :=
  decide (absolutePath.indexOf chDot = absolutePath.length)

/-- Equality of results is decidable. -/
instance decEqExcept {ε α : Type} [DecidableEq ε] [DecidableEq α] :
    DecidableEq (Except ε α)
  | .ok a, .ok b => if h : a = b then isTrue (by rw [h]) else isFalse (by simpa using h)
  | .error a, .error b =>
    if h : a = b then isTrue (by rw [h]) else isFalse (by simpa using h)
  | .ok _, .error _ => isFalse (by simp)
  | .error _, .ok _ => isFalse (by simp)

/-! ## Vocabulary of the specification -/

/-- An ASCII letter, `A`-`Z` or `a`-`z`, as a byte. -/
def isAsciiLetter (c : Byte) : Prop :=
  (65 ≤ c.val ∧ c.val ≤ 90) ∨ (97 ≤ c.val ∧ c.val ≤ 122)

instance (c : Byte) : Decidable (isAsciiLetter c) := by
  unfold isAsciiLetter
  infer_instance

/-- A string matching `[^./]+`: not empty, with no '.' and no '/'. -/
def isSegment (s : Str) : Prop := s ≠ [] ∧ ∀ c ∈ s, c ≠ chDot ∧ c ≠ chSlash

instance (s : Str) : Decidable (isSegment s) := by
  unfold isSegment
  infer_instance

/-- Directory segments, each followed by '/', in front of a file name:
`d1/d2/.../dn/file`. -/
def joinPath : List Str → Str → Str
  | [], file => file
  | d :: ds, file => d ++ chSlash :: joinPath ds file

/-- The string `D:/d1/.../dn/name.ext`. -/
def windowsPath (D : Byte) (dirs : List Str) (name ext : Str) : Str :=
  D :: chColon :: chSlash :: joinPath dirs (name ++ chDot :: ext)

/-- The path `P` matches `^[A-Z]:/([^./]+/)*[^./]+\.[^./]+$` and no two of its
directory segments have the same name. -/
def ValidWindowsPath (P : Str) : Prop :=
  ∃ (D : Byte) (dirs : List Str) (name ext : Str),
    P = windowsPath D dirs name ext ∧ (65 ≤ D.val ∧ D.val ≤ 90) ∧
      (∀ d ∈ dirs, isSegment d) ∧ isSegment name ∧ isSegment ext ∧ dirs.Nodup

/-! ## Basic facts about the embedding -/

theorem charVal_le (c : Byte) : charVal c ≤ 127 := by
  have := c.isLt
  unfold charVal
  split <;> omega

theorem charVal_of_lt {c : Byte} (h : c.val < 128) : charVal c = (c.val : Int) := by
  unfold charVal
  rw [if_pos h]

theorem charVal_of_ge {c : Byte} (h : 128 ≤ c.val) : charVal c = (c.val : Int) - 256 := by
  unfold charVal
  rw [if_neg (by omega)]

/-- The non-ASCII loop never throws: a signed `char` is never above 127. -/
theorem nonAsciiDetected_eq_false (path : Str) : nonAsciiDetected path = false := by
  unfold nonAsciiDetected
  rw [List.any_eq_false]
  intro c _
  have := charVal_le c
  simp only [gt_iff_lt, decide_eq_true_eq, not_lt]
  exact this

theorem find_isSome_iff (pat path : Str) : (find pat path).isSome ↔ pat <:+: path := by
  induction path with
  | nil =>
    unfold find
    by_cases h : pat = []
    · simp [h]
    · simp [h]
  | cons c cs ih =>
    unfold find
    rw [List.infix_cons_iff]
    by_cases h : pat <+: c :: cs
    · simp [h]
    · rw [if_neg h, Option.isSome_map']
      simp [h, ih]

theorem find_eq_none_iff (pat path : Str) : find pat path = none ↔ ¬ pat <:+: path := by
  rw [← find_isSome_iff, Option.not_isSome_iff_eq_none]

/-- What `find` returns is the lowest index at which the pattern occurs. -/
theorem find_eq_some (pat path : Str) (i : Nat) (h : find pat path = some i) :
    i ≤ path.length ∧ pat <+: path.drop i ∧ ∀ j, j < i → ¬ pat <+: path.drop j := by
  induction path generalizing i with
  | nil =>
    unfold find at h
    by_cases hp : pat = []
    · simp only [hp, if_true, Option.some.injEq] at h
      subst h
      simp [hp]
    · simp [hp] at h
  | cons c cs ih =>
    unfold find at h
    by_cases hp : pat <+: c :: cs
    · rw [if_pos hp] at h
      simp only [Option.some.injEq] at h
      subst h
      simp [hp]
    · rw [if_neg hp] at h
      rw [Option.map_eq_some'] at h
      obtain ⟨k, hk, rfl⟩ := h
      obtain ⟨h1, h2, h3⟩ := ih k hk
      refine ⟨by simp; omega, by simpa using h2, ?_⟩
      intro j hj
      cases j with
      | zero => simpa using hp
      | succ j => simpa using h3 j (by omega)

/-- A path of ASCII bytes passes the non-ASCII loop. -/
theorem nonAsciiDetected_of_ascii (path : Str) (h : ∀ c ∈ path, c.val ≤ 127) :
    nonAsciiDetected path = false := by
  unfold nonAsciiDetected
  rw [List.any_eq_false]
  intro c hc
  have h1 := h c hc
  have h2 : charVal c = (c.val : Int) := charVal_of_lt (by omega)
  simp only [gt_iff_lt, decide_eq_true_eq, not_lt, h2]
  omega

theorem isUpperLetter_iff (c : Byte) : isUpperLetter c = true ↔ 65 ≤ c.val ∧ c.val ≤ 90 := by
  have := c.isLt
  unfold isUpperLetter charVal
  simp only [Bool.and_eq_true, decide_eq_true_eq, ge_iff_le]
  split <;> omega

theorem isLowerLetter_iff (c : Byte) : isLowerLetter c = true ↔ 97 ≤ c.val ∧ c.val ≤ 122 := by
  have := c.isLt
  unfold isLowerLetter charVal
  simp only [Bool.and_eq_true, decide_eq_true_eq, ge_iff_le]
  split <;> omega

/-- When `SanitizeAbsolutePath` returns normally under `WIN32`, and with what. -/
theorem SanitizeAbsolutePath_win32_ok_iff (path r : Str) :
    SanitizeAbsolutePath .win32 path = .ok r ↔
      nrOfDots path ≤ 1 ∧
      ¬ [chSlash, chSlash] <:+: replace chBackslash chSlash path ∧
      ¬ [chDot, chSlash] <:+: replace chBackslash chSlash path ∧
      ¬ [chSlash, chDot] <:+: replace chBackslash chSlash path ∧
      ((isLowerLetter (at0 (replace chBackslash chSlash path)) = true ∧
          r = setAt0 (toChar (charVal (at0 (replace chBackslash chSlash path)) + (97 - 65)))
                (replace chBackslash chSlash path)) ∨
       (isUpperLetter (at0 (replace chBackslash chSlash path)) = true ∧
          r = replace chBackslash chSlash path)) := by
  have hlu : ∀ c : Byte, isLowerLetter c = true → isUpperLetter c = false := by
    intro c hc
    rw [isLowerLetter_iff] at hc
    cases hu : isUpperLetter c with
    | false => rfl
    | true => rw [isUpperLetter_iff] at hu; omega
  simp only [SanitizeAbsolutePath, nonAsciiDetected_eq_false, find_isSome_iff]
  by_cases h1 : nrOfDots path > 1
  · simp [h1]
  by_cases h2 : [chSlash, chSlash] <:+: replace chBackslash chSlash path
  · simp [h1, h2]
  by_cases h3 : [chDot, chSlash] <:+: replace chBackslash chSlash path
  · simp [h1, h2, h3]
  by_cases h4 : [chSlash, chDot] <:+: replace chBackslash chSlash path
  · simp [h1, h2, h3, h4]
  have h1' : nrOfDots path ≤ 1 := by omega
  cases hl : isLowerLetter (at0 (replace chBackslash chSlash path)) with
  | true =>
    have hu := hlu _ hl
    simp [h1, h2, h3, h4, hl, hu, h1', eq_comm]
  | false =>
    cases hu : isUpperLetter (at0 (replace chBackslash chSlash path)) with
    | true => simp [h1, h2, h3, h4, hl, hu, h1', eq_comm]
    | false => simp [h1, h2, h3, h4, hl, hu, h1']

/-! ## Drive-letter case rewrite -/

/-- C1: at the path "c:/root/a.txt" the WIN32 body of `SanitizeAbsolutePath`
returns normally, but the drive letter is not rewritten to 'C': the statement
`path[0] += 'a' - 'A'` adds 32 to the lowercase letter, leaving the byte 131
(0x83) in front of ":/root/a.txt", so the result differs from "C:/root/a.txt". -/
theorem SanitizeAbsolutePath_lowercase_drive_adds_32 :
    SanitizeAbsolutePath .win32 (ofString "c:/root/a.txt")
        = .ok ((131 : Byte) :: ofString ":/root/a.txt") ∧
      SanitizeAbsolutePath .win32 (ofString "c:/root/a.txt")
        ≠ .ok (ofString "C:/root/a.txt") := by
  decide

/-- C2: normalisation is not idempotent at "c:/root/a.txt": the first call
returns the byte 131 followed by ":/root/a.txt", and the call on that result
throws the missing-drive-letter failure instead of returning it unchanged. -/
theorem SanitizeAbsolutePath_second_call_fails :
    SanitizeAbsolutePath .win32 (ofString "c:/root/a.txt")
        = .ok ((131 : Byte) :: ofString ":/root/a.txt") ∧
      SanitizeAbsolutePath .win32 ((131 : Byte) :: ofString ":/root/a.txt")
        = .error .missingDriveLetter := by
  decide

/-! ## Rule 1: ASCII only -/

/-- C4: the path "C:/" ++ [0xE9] ++ ".txt" holds a byte above 127 and the
WIN32 body of `SanitizeAbsolutePath` returns it unchanged; indeed the
comparison `c > 127` on a signed `char` is never true, so no path at all fails
with the non-ASCII failure. -/
theorem SanitizeAbsolutePath_accepts_non_ascii :
    (∃ c ∈ ofString "C:/" ++ [(233 : Byte)] ++ ofString ".txt", c.val > 127) ∧
      SanitizeAbsolutePath .win32 (ofString "C:/" ++ [(233 : Byte)] ++ ofString ".txt")
        = .ok (ofString "C:/" ++ [(233 : Byte)] ++ ofString ".txt") ∧
      ∀ path : Str, SanitizeAbsolutePath .win32 path ≠ .error .nonAsciiCharacter := by
  refine ⟨by decide, by decide, ?_⟩
  intro path
  simp only [SanitizeAbsolutePath, nonAsciiDetected_eq_false]
  repeat' split
  all_goals simp_all

/-! ## Rule 2: at most one dot -/

/-- C5: every path with two or more '.' characters makes the WIN32 body of
`SanitizeAbsolutePath` throw the multiple-dots failure, whatever else the path
contains. -/
theorem SanitizeAbsolutePath_multipleDots (path : Str) (h : 2 ≤ List.count chDot path) :
    SanitizeAbsolutePath .win32 path = .error .multipleDots := by
  have h1 : nrOfDots path > 1 := h
  simp [SanitizeAbsolutePath, nonAsciiDetected_eq_false, h1]

/-- C5 at two backslashes, then "../.x", then the byte 200: more than one dot
together with a doubled separator, relative syntax, no drive letter and a byte
above 127. -/
theorem SanitizeAbsolutePath_multipleDots_witness :
    2 ≤ List.count chDot (ofString "\\\\../.x" ++ [(200 : Byte)]) ∧
      SanitizeAbsolutePath .win32 (ofString "\\\\../.x" ++ [(200 : Byte)])
        = .error .multipleDots :=
  ⟨by decide, SanitizeAbsolutePath_multipleDots _ (by decide)⟩

/-! ## Rules 3 and 4: separator rewriting and doubled separators -/

theorem replace_append (a b : Byte) (s t : Str) :
    replace a b (s ++ t) = replace a b s ++ replace a b t := by
  simp [replace]

theorem replace_cons (a b c : Byte) (t : Str) :
    replace a b (c :: t) = (if c = a then b else c) :: replace a b t := by
  simp [replace]

/-- C6: a path of ASCII bytes with at most one '.' in which two separators
('/' or '\\') stand next to each other makes the WIN32 body of
`SanitizeAbsolutePath` throw the doubled-separator failure. -/
theorem SanitizeAbsolutePath_doubledSeparator (path s t : Str) (a b : Byte)
    (hascii : ∀ c ∈ path, c.val ≤ 127) (hdots : List.count chDot path ≤ 1)
    (hpath : path = s ++ a :: b :: t)
    (ha : a = chSlash ∨ a = chBackslash) (hb : b = chSlash ∨ b = chBackslash) :
    SanitizeAbsolutePath .win32 path = .error .doubledSeparator := by
  have h0 := nonAsciiDetected_of_ascii path hascii
  have h1 : ¬ nrOfDots path > 1 := by unfold nrOfDots; omega
  have ha' : (if a = chBackslash then chSlash else a) = chSlash := by
    rcases ha with rfl | rfl <;> decide
  have hb' : (if b = chBackslash then chSlash else b) = chSlash := by
    rcases hb with rfl | rfl <;> decide
  have h2 : [chSlash, chSlash] <:+: replace chBackslash chSlash path := by
    rw [hpath, replace_append, replace_cons, replace_cons, ha', hb']
    exact ⟨replace chBackslash chSlash s, replace chBackslash chSlash t, by simp⟩
  simp [SanitizeAbsolutePath, h0, h1, find_isSome_iff, h2]

/-- C6 at "C:/root//a.txt". -/
theorem SanitizeAbsolutePath_doubledSeparator_witness :
    SanitizeAbsolutePath .win32 (ofString "C:/root//a.txt") = .error .doubledSeparator :=
  SanitizeAbsolutePath_doubledSeparator (ofString "C:/root//a.txt")
    (ofString "C:/root") (ofString "a.txt") chSlash chSlash
    (by decide) (by decide) (by decide) (by decide) (by decide)

/-! ## Rule 5: no relative syntax -/

/-- C7: a path of ASCII bytes with at most one '.', without "//" after
backslashes are rewritten, and with "./" or "/." in the rewritten string,
makes the WIN32 body of `SanitizeAbsolutePath` throw the relative-syntax
failure. -/
theorem SanitizeAbsolutePath_relativeSyntax (path : Str)
    (hascii : ∀ c ∈ path, c.val ≤ 127) (hdots : List.count chDot path ≤ 1)
    (hsep : ¬ [chSlash, chSlash] <:+: replace chBackslash chSlash path)
    (hrel : [chDot, chSlash] <:+: replace chBackslash chSlash path ∨
      [chSlash, chDot] <:+: replace chBackslash chSlash path) :
    SanitizeAbsolutePath .win32 path = .error .relativeSyntaxPresent := by
  have h0 := nonAsciiDetected_of_ascii path hascii
  have h1 : ¬ nrOfDots path > 1 := by unfold nrOfDots; omega
  simp only [SanitizeAbsolutePath, h0, h1, find_isSome_iff, hsep]
  rcases hrel with h | h
  · simp [h]
  · by_cases h' : [chDot, chSlash] <:+: replace chBackslash chSlash path
    · simp [h']
    · simp [h, h']

/-- C7 at "C:/root/.gitignore" and at "C:\\root\\.git". -/
theorem SanitizeAbsolutePath_relativeSyntax_witness :
    SanitizeAbsolutePath .win32 (ofString "C:/root/.gitignore")
        = .error .relativeSyntaxPresent ∧
      SanitizeAbsolutePath .win32 (ofString "C:\\root\\.git")
        = .error .relativeSyntaxPresent :=
  ⟨SanitizeAbsolutePath_relativeSyntax (ofString "C:/root/.gitignore")
      (by decide) (by decide) (by decide) (by decide),
   SanitizeAbsolutePath_relativeSyntax (ofString "C:\\root\\.git")
      (by decide) (by decide) (by decide) (by decide)⟩

/-! ## Rule 6: drive letter -/

theorem at0_replace (a b : Byte) (path : Str) (ha : a ≠ 0) :
    at0 (replace a b path) = if at0 path = a then b else at0 path := by
  cases path with
  | nil =>
    have : ¬ (0 : Byte) = a := fun h => ha h.symm
    simp [at0, replace, this]
  | cons c cs => simp [at0, replace]

theorem isUpperLetter_at0_replace (path : Str) :
    isUpperLetter (at0 (replace chBackslash chSlash path)) = isUpperLetter (at0 path) := by
  rw [at0_replace _ _ _ (by decide)]
  split
  · rename_i h
    rw [h]
    decide
  · rfl

theorem isLowerLetter_at0_replace (path : Str) :
    isLowerLetter (at0 (replace chBackslash chSlash path)) = isLowerLetter (at0 path) := by
  rw [at0_replace _ _ _ (by decide)]
  split
  · rename_i h
    rw [h]
    decide
  · rfl

/-- The test `(path[0] >= 'A' && path[0] <= 'Z') || (path[0] >= 'a' && path[0] <= 'z')`
holds exactly when the path has a first character and it is an ASCII letter. -/
theorem letter_at0_iff (path : Str) :
    (isUpperLetter (at0 path) || isLowerLetter (at0 path)) = true ↔
      ∃ c, path.head? = some c ∧ isAsciiLetter c := by
  rw [Bool.or_eq_true, isUpperLetter_iff, isLowerLetter_iff]
  cases path with
  | nil => simp [at0]
  | cons c cs => simp [at0, isAsciiLetter]

/-- C8: a path (the empty one included) of ASCII bytes with at most one '.'
and, after backslashes are rewritten, no "//", "./" or "/.", whose first
character is not an ASCII letter, makes the WIN32 body of
`SanitizeAbsolutePath` throw the missing-drive-letter failure; and a path whose
first character is an ASCII letter never fails with that failure. -/
theorem SanitizeAbsolutePath_missingDriveLetter (path : Str) :
    ((∀ c ∈ path, c.val ≤ 127) → List.count chDot path ≤ 1 →
        ¬ [chSlash, chSlash] <:+: replace chBackslash chSlash path →
        ¬ [chDot, chSlash] <:+: replace chBackslash chSlash path →
        ¬ [chSlash, chDot] <:+: replace chBackslash chSlash path →
        (¬ ∃ c, path.head? = some c ∧ isAsciiLetter c) →
        SanitizeAbsolutePath .win32 path = .error .missingDriveLetter) ∧
      ((∃ c, path.head? = some c ∧ isAsciiLetter c) →
        SanitizeAbsolutePath .win32 path ≠ .error .missingDriveLetter) := by
  constructor
  · intro hascii hdots h2 h3 h4 hfirst
    have h0 := nonAsciiDetected_of_ascii path hascii
    have h1 : ¬ nrOfDots path > 1 := by unfold nrOfDots; omega
    rw [← letter_at0_iff, Bool.not_eq_true] at hfirst
    simp [SanitizeAbsolutePath, h0, h1, find_isSome_iff, h2, h3, h4,
      isUpperLetter_at0_replace, isLowerLetter_at0_replace, hfirst]
  · intro hfirst
    rw [← letter_at0_iff] at hfirst
    simp only [SanitizeAbsolutePath, isUpperLetter_at0_replace, isLowerLetter_at0_replace,
      hfirst]
    repeat' split
    all_goals simp_all

/-- C8 at the empty path and at "1:/a.txt" (thrown), and at "C:/a//b" (a
letter first: another failure is thrown). -/
theorem SanitizeAbsolutePath_missingDriveLetter_witness :
    SanitizeAbsolutePath .win32 [] = .error .missingDriveLetter ∧
      SanitizeAbsolutePath .win32 (ofString "1:/a.txt") = .error .missingDriveLetter ∧
      SanitizeAbsolutePath .win32 (ofString "C:/a//b") ≠ .error .missingDriveLetter :=
  ⟨(SanitizeAbsolutePath_missingDriveLetter []).1
      (by decide) (by decide) (by decide) (by decide) (by decide) (by decide),
   (SanitizeAbsolutePath_missingDriveLetter (ofString "1:/a.txt")).1
      (by decide) (by decide) (by decide) (by decide) (by decide) (by decide),
   (SanitizeAbsolutePath_missingDriveLetter (ofString "C:/a//b")).2 (by decide)⟩

/-! ## Decomposition -/

/-- C9: `RelativePathFromAbsolutePath` throws the root-not-found failure
exactly when `rootDir` is not a contiguous substring of `path`; otherwise it
returns the suffix of `path` starting at some index `i` at which `rootDir`
occurs (so the result starts with `rootDir`) while `rootDir` occurs at no
index below `i`. -/
theorem RelativePathFromAbsolutePath_spec (path rootDir : Str) :
    (RelativePathFromAbsolutePath path rootDir = .error .rootNotFound ↔
        ¬ rootDir <:+: path) ∧
      (rootDir <:+: path →
        ∃ i, i ≤ path.length ∧
          RelativePathFromAbsolutePath path rootDir = .ok (path.drop i) ∧
          rootDir <+: path.drop i ∧
          ∀ j, j < i → ¬ rootDir <+: path.drop j) := by
  unfold RelativePathFromAbsolutePath
  cases hf : find rootDir path with
  | none =>
    have hn := (find_eq_none_iff rootDir path).1 hf
    exact ⟨by simp [hn], fun h => absurd h hn⟩
  | some i =>
    have hs : rootDir <:+: path := by
      rw [← find_isSome_iff, hf]
      rfl
    obtain ⟨h1, h2, h3⟩ := find_eq_some rootDir path i hf
    have ht : List.take (path.length - i) (List.drop i path) = List.drop i path :=
      List.take_of_length_le (by simp)
    refine ⟨by simp [hs], fun _ => ⟨i, h1, ?_, h2, h3⟩⟩
    simp only [ht]

/-- C9 at path "C:/root/sub/root/f.txt" with rootDir "root" (found: the
result is a suffix starting with "root", with no earlier occurrence) and with
rootDir "nope" (not found). -/
theorem RelativePathFromAbsolutePath_spec_witness :
    (∃ i, i ≤ (ofString "C:/root/sub/root/f.txt").length ∧
        RelativePathFromAbsolutePath (ofString "C:/root/sub/root/f.txt") (ofString "root")
          = .ok ((ofString "C:/root/sub/root/f.txt").drop i) ∧
        ofString "root" <+: (ofString "C:/root/sub/root/f.txt").drop i ∧
        ∀ j, j < i → ¬ ofString "root" <+: (ofString "C:/root/sub/root/f.txt").drop j) ∧
      RelativePathFromAbsolutePath (ofString "C:/root/sub/root/f.txt") (ofString "nope")
        = .error .rootNotFound :=
  ⟨(RelativePathFromAbsolutePath_spec (ofString "C:/root/sub/root/f.txt")
      (ofString "root")).2 (by decide),
   (RelativePathFromAbsolutePath_spec (ofString "C:/root/sub/root/f.txt")
      (ofString "nope")).1.2 (by decide)⟩

theorem indexOf_dot_file (dir name ext : Str) (hdir : chDot ∉ dir) (hname : chDot ∉ name) :
    List.indexOf chDot (dir ++ chSlash :: (name ++ chDot :: ext))
      = dir.length + 1 + name.length := by
  rw [List.indexOf_append_of_not_mem hdir, List.indexOf_cons_ne _ (by decide),
    List.indexOf_append_of_not_mem hname, List.indexOf_cons_self]
  omega

theorem indexOf_slash_reverse_file (dir name ext : Str)
    (hname : chSlash ∉ name) (hext : chSlash ∉ ext) :
    List.indexOf chSlash (dir ++ chSlash :: (name ++ chDot :: ext)).reverse
      = ext.length + 1 + name.length := by
  have hrev : (dir ++ chSlash :: (name ++ chDot :: ext)).reverse
      = ext.reverse ++ chDot :: (name.reverse ++ chSlash :: dir.reverse) := by
    simp
  have hext' : chSlash ∉ ext.reverse := by simpa using hext
  have hname' : chSlash ∉ name.reverse := by simpa using hname
  rw [hrev, List.indexOf_append_of_not_mem hext', List.indexOf_cons_ne _ (by decide),
    List.indexOf_append_of_not_mem hname', List.indexOf_cons_self]
  simp
  omega

/-- C10: on a path `dir ++ "/" ++ name ++ "." ++ ext`, where `dir` has no '.'
and `name` and `ext` have neither '.' nor '/', `StemFromAbsolutePath` returns
`name` and `ExtensionFromAbsolutePath` returns `"." ++ ext`; and constructing a
`Path` from "C:/root/sub/file.txt" with rootDir "root" (WIN32 build) gives
relative "root/sub/file.txt", stem "file", extension ".txt" and a false
directory flag. -/
theorem StemFromAbsolutePath_ExtensionFromAbsolutePath_file (dir name ext : Str)
    (hdir : chDot ∉ dir)
    (hname : ∀ c ∈ name, c ≠ chDot ∧ c ≠ chSlash)
    (hext : ∀ c ∈ ext, c ≠ chDot ∧ c ≠ chSlash) :
    StemFromAbsolutePath (dir ++ [chSlash] ++ name ++ [chDot] ++ ext) = .ok name ∧
      ExtensionFromAbsolutePath (dir ++ [chSlash] ++ name ++ [chDot] ++ ext)
        = .ok (chDot :: ext) ∧
      Path.Path .win32 (ofString "C:/root/sub/file.txt") (ofString "root")
        = .ok { str_ := ofString "C:/root/sub/file.txt", rootDir_ := ofString "root",
                relative_ := ofString "root/sub/file.txt", stem_ := ofString "file",
                extension_ := ofString ".txt", isDirectory_ := false } := by
  have hnd : chDot ∉ name := fun h => (hname _ h).1 rfl
  have hns : chSlash ∉ name := fun h => (hname _ h).2 rfl
  have hes : chSlash ∉ ext := fun h => (hext _ h).2 rfl
  have hform : dir ++ [chSlash] ++ name ++ [chDot] ++ ext
      = dir ++ chSlash :: (name ++ chDot :: ext) := by simp
  have hlen : (dir ++ chSlash :: (name ++ chDot :: ext)).length
      = dir.length + 1 + name.length + 1 + ext.length := by
    simp
    omega
  have hd := indexOf_dot_file dir name ext hdir hnd
  have hr := indexOf_slash_reverse_file dir name ext hns hes
  have hdrop1 : List.drop (dir.length + 1) (dir ++ chSlash :: (name ++ chDot :: ext))
      = name ++ chDot :: ext := by
    rw [List.drop_append_eq_append_drop]
    simp
  have hdrop2 : List.drop (dir.length + 1 + name.length)
      (dir ++ chSlash :: (name ++ chDot :: ext)) = chDot :: ext := by
    rw [← List.drop_drop, hdrop1]
    simp
  refine ⟨?_, ?_, by decide⟩
  · rw [hform]
    unfold StemFromAbsolutePath
    simp only [hd, hr, hlen]
    have hb : dir.length + 1 + name.length + 1 + ext.length - 1 - (ext.length + 1 + name.length) + 1
        = dir.length + 1 := by omega
    rw [hb, if_neg (by omega), if_pos (by omega), hdrop1]
    have he : dir.length + 1 + name.length - (dir.length + 1) = name.length := by omega
    rw [he]
    simp
  · rw [hform]
    unfold ExtensionFromAbsolutePath
    simp only [hd, hlen]
    rw [if_neg (by omega), hdrop2]
    have he : dir.length + 1 + name.length + 1 + ext.length - (dir.length + 1 + name.length)
        = (chDot :: ext).length := by
      simp
      omega
    rw [he, List.take_length]

/-- C10 at dir = "C:/root/sub", name = "file", ext = "txt". -/
theorem StemFromAbsolutePath_ExtensionFromAbsolutePath_file_witness :
    StemFromAbsolutePath (ofString "C:/root/sub/file.txt") = .ok (ofString "file") ∧
      ExtensionFromAbsolutePath (ofString "C:/root/sub/file.txt") = .ok (ofString ".txt") :=
  ⟨(StemFromAbsolutePath_ExtensionFromAbsolutePath_file (ofString "C:/root/sub")
      (ofString "file") (ofString "txt") (by decide) (by decide) (by decide)).1,
   (StemFromAbsolutePath_ExtensionFromAbsolutePath_file (ofString "C:/root/sub")
      (ofString "file") (ofString "txt") (by decide) (by decide) (by decide)).2.1⟩

/-! ## Paths that are already clean -/

theorem pair_infix_cons (x y c : Byte) (l : Str) :
    [x, y] <:+: c :: l ↔ (x = c ∧ l.head? = some y) ∨ [x, y] <:+: l := by
  rw [List.infix_cons_iff, List.cons_prefix_cons]
  cases l with
  | nil => simp
  | cons d l => simp [List.cons_prefix_cons, eq_comm]

theorem pair_infix_cons_of_ne (x y c : Byte) (l : Str) (h : c ≠ x) :
    [x, y] <:+: c :: l ↔ [x, y] <:+: l := by
  rw [pair_infix_cons]
  constructor
  · rintro (⟨h1, _⟩ | h2)
    · exact absurd h1.symm h
    · exact h2
  · exact Or.inr

theorem pair_infix_cons_of_head_ne (x y c : Byte) (l : Str)
    (h : ∀ d, l.head? = some d → d ≠ y) :
    [x, y] <:+: c :: l ↔ [x, y] <:+: l := by
  rw [pair_infix_cons]
  constructor
  · rintro (⟨_, h1⟩ | h2)
    · exact absurd rfl (h y h1)
    · exact h2
  · exact Or.inr

theorem pair_infix_append_of_not_mem (x y : Byte) (seg l : Str) (h : x ∉ seg) :
    [x, y] <:+: seg ++ l ↔ [x, y] <:+: l := by
  induction seg with
  | nil => simp
  | cons c seg ih =>
    rw [List.cons_append, pair_infix_cons_of_ne x y c _ (fun hc => h (by simp [hc])),
      ih (fun hm => h (by simp [hm]))]

theorem not_pair_infix_of_not_mem (x y : Byte) (seg : Str) (h : x ∉ seg) :
    ¬ [x, y] <:+: seg := by
  have := pair_infix_append_of_not_mem x y seg [] h
  rw [List.append_nil] at this
  rw [this]
  simp

/-- A file name `name.ext` has none of the two-character patterns made of '.'
and '/', and starts with a character that is neither. -/
theorem file_clean (x y : Byte) (name ext : Str)
    (hx : x = chDot ∨ x = chSlash) (hy : y = chDot ∨ y = chSlash)
    (hname : isSegment name) (hext : isSegment ext) :
    ¬ [x, y] <:+: name ++ chDot :: ext ∧
      ∃ d, (name ++ chDot :: ext).head? = some d ∧ d ≠ chDot ∧ d ≠ chSlash := by
  have hxn : x ∉ name := by
    intro hm
    rcases hx with rfl | rfl
    · exact (hname.2 _ hm).1 rfl
    · exact (hname.2 _ hm).2 rfl
  have hxe : x ∉ ext := by
    intro hm
    rcases hx with rfl | rfl
    · exact (hext.2 _ hm).1 rfl
    · exact (hext.2 _ hm).2 rfl
  constructor
  · rw [pair_infix_append_of_not_mem x y name _ hxn]
    rw [pair_infix_cons_of_head_ne x y chDot ext]
    · exact not_pair_infix_of_not_mem x y ext hxe
    · intro d hd hdy
      have hmem : d ∈ ext := List.mem_of_mem_head? hd
      rcases hy with rfl | rfl
      · exact (hext.2 _ hmem).1 hdy
      · exact (hext.2 _ hmem).2 hdy
  · obtain ⟨hne, hall⟩ := hname
    cases name with
    | nil => exact absurd rfl hne
    | cons n ns => exact ⟨n, by simp, hall n (by simp)⟩

/-- Joining clean directory segments in front of a clean file keeps it clean. -/
theorem joinPath_clean (x y : Byte) (dirs : List Str) (file : Str)
    (hx : x = chDot ∨ x = chSlash) (hy : y = chDot ∨ y = chSlash)
    (hdirs : ∀ d ∈ dirs, isSegment d)
    (hfile : ¬ [x, y] <:+: file ∧ ∃ d, file.head? = some d ∧ d ≠ chDot ∧ d ≠ chSlash) :
    ¬ [x, y] <:+: joinPath dirs file ∧
      ∃ d, (joinPath dirs file).head? = some d ∧ d ≠ chDot ∧ d ≠ chSlash := by
  induction dirs with
  | nil => exact hfile
  | cons seg ds ih =>
    have hseg := hdirs seg (by simp)
    obtain ⟨ih1, d, ih2, ih3, ih4⟩ := ih (fun d hd => hdirs d (by simp [hd]))
    have hxs : x ∉ seg := by
      intro hm
      rcases hx with rfl | rfl
      · exact (hseg.2 _ hm).1 rfl
      · exact (hseg.2 _ hm).2 rfl
    constructor
    · show ¬ [x, y] <:+: seg ++ chSlash :: joinPath ds file
      rw [pair_infix_append_of_not_mem x y seg _ hxs]
      rw [pair_infix_cons_of_head_ne x y chSlash _]
      · exact ih1
      · intro d' hd' hdy
        rw [ih2] at hd'
        simp only [Option.some.injEq] at hd'
        subst hd'
        rcases hy with rfl | rfl
        · exact ih3 hdy
        · exact ih4 hdy
    · obtain ⟨hne, hall⟩ := hseg
      cases seg with
      | nil => exact absurd rfl hne
      | cons n ns => exact ⟨n, by simp [joinPath], hall n (by simp)⟩

theorem count_dot_joinPath (dirs : List Str) (file : Str) (hdirs : ∀ d ∈ dirs, isSegment d) :
    List.count chDot (joinPath dirs file) = List.count chDot file := by
  induction dirs with
  | nil => rfl
  | cons seg ds ih =>
    have hseg := hdirs seg (by simp)
    have h0 : List.count chDot seg = 0 :=
      List.count_eq_zero.2 (fun hm => (hseg.2 _ hm).1 rfl)
    show List.count chDot (seg ++ chSlash :: joinPath ds file) = _
    rw [List.count_append, h0, List.count_cons_of_ne (by decide),
      ih (fun d hd => hdirs d (by simp [hd]))]
    simp

theorem replace_eq_self (a b : Byte) (l : Str) (h : a ∉ l) : replace a b l = l := by
  unfold replace
  induction l with
  | nil => rfl
  | cons c cs ih =>
    have hc : ¬ c = a := fun hc => h (by simp [hc])
    simp only [List.map_cons, if_neg hc]
    rw [ih (fun hm => h (by simp [hm]))]

/-- A path `D:/d1/.../dn/name.ext` has none of the two-character patterns made
of '.' and '/'. -/
theorem windowsPath_clean (x y D : Byte) (dirs : List Str) (name ext : Str)
    (hx : x = chDot ∨ x = chSlash) (hy : y = chDot ∨ y = chSlash)
    (hD : 65 ≤ D.val ∧ D.val ≤ 90)
    (hdirs : ∀ d ∈ dirs, isSegment d) (hname : isSegment name) (hext : isSegment ext) :
    ¬ [x, y] <:+: windowsPath D dirs name ext := by
  obtain ⟨h1, d, h2, h3, h4⟩ :=
    joinPath_clean x y dirs (name ++ chDot :: ext) hx hy hdirs (file_clean x y name ext hx hy hname hext)
  have hDx : D ≠ x := by
    intro h
    rcases hx with hx | hx
    · rw [h, hx] at hD
      exact absurd hD (by decide)
    · rw [h, hx] at hD
      exact absurd hD (by decide)
  have hcx : chColon ≠ x := by
    intro h
    subst h
    rcases hx with h | h
    · exact absurd h (by decide)
    · exact absurd h (by decide)
  unfold windowsPath
  rw [pair_infix_cons_of_ne x y D _ hDx, pair_infix_cons_of_ne x y chColon _ hcx,
    pair_infix_cons_of_head_ne x y chSlash _]
  · exact h1
  · intro d' hd' hdy
    rw [h2] at hd'
    simp only [Option.some.injEq] at hd'
    subst hd'
    rcases hy with rfl | rfl
    · exact h3 hdy
    · exact h4 hdy

theorem count_dot_windowsPath (D : Byte) (dirs : List Str) (name ext : Str)
    (hD : 65 ≤ D.val ∧ D.val ≤ 90)
    (hdirs : ∀ d ∈ dirs, isSegment d) (hname : isSegment name) (hext : isSegment ext) :
    List.count chDot (windowsPath D dirs name ext) = 1 := by
  have hDd : chDot ≠ D := by
    intro h
    rw [← h] at hD
    exact absurd hD (by decide)
  have hn : List.count chDot name = 0 :=
    List.count_eq_zero.2 (fun hm => (hname.2 _ hm).1 rfl)
  have he : List.count chDot ext = 0 :=
    List.count_eq_zero.2 (fun hm => (hext.2 _ hm).1 rfl)
  unfold windowsPath
  rw [List.count_cons_of_ne hDd, List.count_cons_of_ne (by decide),
    List.count_cons_of_ne (by decide), count_dot_joinPath dirs _ hdirs,
    List.count_append, hn, List.count_cons_self, he]

/-- C3 (as stated, refuted): "C:/a\\b.txt" matches
`^[A-Z]:/([^./]+/)*[^./]+\.[^./]+$` (a backslash is neither '.' nor '/') and
has no directory segment at all, yet the WIN32 body of `SanitizeAbsolutePath`
returns "C:/a/b.txt", not the path it was given. -/
theorem SanitizeAbsolutePath_valid_path_backslash_rewritten :
    ValidWindowsPath (ofString "C:/a\\b.txt") ∧
      SanitizeAbsolutePath .win32 (ofString "C:/a\\b.txt") = .ok (ofString "C:/a/b.txt") ∧
      SanitizeAbsolutePath .win32 (ofString "C:/a\\b.txt")
        ≠ .ok (ofString "C:/a\\b.txt") :=
  ⟨⟨67, [], ofString "a\\b", ofString "txt", by decide, by decide, by decide, by decide,
      by decide, by decide⟩, by decide, by decide⟩

/-- C3 (amended): every path of ASCII bytes without a backslash that matches
`^[A-Z]:/([^./]+/)*[^./]+\.[^./]+$` and has no repeated directory segment name
is accepted by the WIN32 body of `SanitizeAbsolutePath` and returned unchanged. -/
theorem SanitizeAbsolutePath_valid_path_unchanged (P : Str) (hvalid : ValidWindowsPath P)
    (hplain : ∀ c ∈ P, c.val ≤ 127 ∧ c ≠ chBackslash) :
    SanitizeAbsolutePath .win32 P = .ok P := by
  obtain ⟨D, dirs, name, ext, rfl, hD, hdirs, hname, hext, _⟩ := hvalid
  have hrep : replace chBackslash chSlash (windowsPath D dirs name ext)
      = windowsPath D dirs name ext :=
    replace_eq_self _ _ _ (fun hm => (hplain _ hm).2 rfl)
  have hup : isUpperLetter (at0 (windowsPath D dirs name ext)) = true := by
    rw [isUpperLetter_iff]
    exact hD
  rw [SanitizeAbsolutePath_win32_ok_iff, hrep]
  refine ⟨?_, ?_, ?_, ?_, Or.inr ⟨hup, rfl⟩⟩
  · unfold nrOfDots
    rw [count_dot_windowsPath D dirs name ext hD hdirs hname hext]
  · exact windowsPath_clean _ _ D dirs name ext (Or.inr rfl) (Or.inr rfl) hD hdirs hname hext
  · exact windowsPath_clean _ _ D dirs name ext (Or.inl rfl) (Or.inr rfl) hD hdirs hname hext
  · exact windowsPath_clean _ _ D dirs name ext (Or.inr rfl) (Or.inl rfl) hD hdirs hname hext

/-- C3 (amended) at "C:/root/sub/file.txt". -/
theorem SanitizeAbsolutePath_valid_path_unchanged_witness :
    SanitizeAbsolutePath .win32 (ofString "C:/root/sub/file.txt")
      = .ok (ofString "C:/root/sub/file.txt") :=
  SanitizeAbsolutePath_valid_path_unchanged (ofString "C:/root/sub/file.txt")
    ⟨67, [ofString "root", ofString "sub"], ofString "file", ofString "txt",
      by decide, by decide, by decide, by decide, by decide, by decide⟩
    (by decide)

/-! ## Extent of the drive-letter rewrite -/

theorem not_mem_replace (l : Str) : chBackslash ∉ replace chBackslash chSlash l := by
  unfold replace
  intro h
  rw [List.mem_map] at h
  obtain ⟨c, _, hc⟩ := h
  by_cases hb : c = chBackslash
  · rw [if_pos hb] at hc
    exact absurd hc (by decide)
  · rw [if_neg hb] at hc
    exact hb hc

theorem replace_replace (l : Str) :
    replace chBackslash chSlash (replace chBackslash chSlash l)
      = replace chBackslash chSlash l :=
  replace_eq_self _ _ _ (not_mem_replace l)

theorem nrOfDots_replace (l : Str) :
    nrOfDots (replace chBackslash chSlash l) = nrOfDots l := by
  unfold nrOfDots replace
  induction l with
  | nil => rfl
  | cons c cs ih =>
    rw [List.map_cons]
    by_cases hb : c = chBackslash
    · rw [if_pos hb, hb, List.count_cons_of_ne (by decide), List.count_cons_of_ne (by decide), ih]
    · rw [if_neg hb, List.count_cons, List.count_cons, ih]

/-- The byte stored by `path[0] += 'a' - 'A'` for a lowercase letter. -/
theorem toChar_lower_add (c : Byte) (h : 97 ≤ c.val ∧ c.val ≤ 122) :
    (toChar (charVal c + (97 - 65))).val = c.val + 32 := by
  rw [charVal_of_lt (by omega)]
  unfold toChar Fin.ofNat
  simp only [Fin.val_mk]
  omega

/-- Idempotence holds on the paths whose first character is an uppercase letter:
what the first call returns, the second call returns unchanged. -/
theorem SanitizeAbsolutePath_idempotent_of_upper (P r : Str)
    (hup : isUpperLetter (at0 P) = true)
    (h : SanitizeAbsolutePath .win32 P = .ok r) :
    SanitizeAbsolutePath .win32 r = .ok r := by
  rw [SanitizeAbsolutePath_win32_ok_iff] at h
  obtain ⟨h1, h2, h3, h4, h5⟩ := h
  have hr : r = replace chBackslash chSlash P := by
    rcases h5 with ⟨hl, _⟩ | ⟨_, hr⟩
    · rw [isLowerLetter_at0_replace, isLowerLetter_iff] at hl
      rw [isUpperLetter_iff] at hup
      omega
    · exact hr
  rw [SanitizeAbsolutePath_win32_ok_iff, hr, replace_replace, nrOfDots_replace]
  refine ⟨h1, h2, h3, h4, Or.inr ⟨?_, rfl⟩⟩
  rw [isUpperLetter_at0_replace]
  exact hup

/-- Every accepted path whose first character is a lowercase letter comes
back with that letter raised by 32 (a byte between 129 and 154), and the call
on the result throws the missing-drive-letter failure. -/
theorem SanitizeAbsolutePath_second_call_fails_of_lower (P r : Str)
    (hlow : isLowerLetter (at0 P) = true)
    (h : SanitizeAbsolutePath .win32 P = .ok r) :
    (at0 r).val = (at0 P).val + 32 ∧
      SanitizeAbsolutePath .win32 r = .error .missingDriveLetter := by
  rw [SanitizeAbsolutePath_win32_ok_iff] at h
  obtain ⟨h1, h2, h3, h4, h5⟩ := h
  have hlow' := hlow
  rw [← isLowerLetter_at0_replace] at hlow'
  have hat : at0 (replace chBackslash chSlash P) = at0 P := by
    rw [at0_replace _ _ _ (by decide), if_neg]
    intro hb
    rw [hb] at hlow
    exact absurd hlow (by decide)
  have hr : r = setAt0 (toChar (charVal (at0 (replace chBackslash chSlash P)) + (97 - 65)))
      (replace chBackslash chSlash P) := by
    rcases h5 with ⟨_, hr⟩ | ⟨hu, _⟩
    · exact hr
    · rw [isUpperLetter_iff] at hu
      rw [isLowerLetter_iff] at hlow'
      omega
  have hv := toChar_lower_add _ ((isLowerLetter_iff _).1 hlow')
  have hnb := not_mem_replace P
  rw [← nrOfDots_replace] at h1
  rw [← hat]
  clear hat hlow h5
  generalize toChar (charVal (at0 (replace chBackslash chSlash P)) + (97 - 65)) = v at hr hv
  generalize replace chBackslash chSlash P = rep at *
  cases rep with
  | nil => exact absurd hlow' (by decide)
  | cons c tail =>
    simp only [setAt0] at hr
    subst hr
    simp only [at0, List.headD_cons] at hlow' hv ⊢
    have hc := (isLowerLetter_iff c).1 hlow'
    have hvx : ∀ x : Byte, x.val ≤ 127 → v ≠ x := by
      intro x hx hvx
      rw [hvx] at hv
      omega
    have hrep : replace chBackslash chSlash (v :: tail) = v :: tail := by
      apply replace_eq_self
      intro hm
      rcases List.mem_cons.1 hm with hm | hm
      · exact hvx chBackslash (by decide) hm.symm
      · exact hnb (List.mem_cons_of_mem _ hm)
    have hpair : ∀ x y : Byte, x.val ≤ 127 → ¬ [x, y] <:+: c :: tail →
        ¬ [x, y] <:+: v :: tail := by
      intro x y hx hn hi
      rw [pair_infix_cons_of_ne x y v tail (hvx x hx)] at hi
      exact hn ((pair_infix_cons x y c tail).2 (Or.inr hi))
    have hdots : ¬ nrOfDots (v :: tail) > 1 := by
      unfold nrOfDots at h1 ⊢
      rw [List.count_cons_of_ne (hvx chDot (by decide)).symm]
      have := List.count_le_count_cons chDot c tail
      omega
    have hnu : isUpperLetter v = false := by
      cases hu : isUpperLetter v with
      | false => rfl
      | true => rw [isUpperLetter_iff] at hu; omega
    have hnl : isLowerLetter v = false := by
      cases hl : isLowerLetter v with
      | false => rfl
      | true => rw [isLowerLetter_iff] at hl; omega
    refine ⟨hv, ?_⟩
    simp [SanitizeAbsolutePath, nonAsciiDetected_eq_false, hdots, hrep, find_isSome_iff,
      hpair _ _ (by decide) h2, hpair _ _ (by decide) h3, hpair _ _ (by decide) h4,
      at0, hnu, hnl]

/-! ## Shape of an accepted path -/

/-- An accepted path, after backslash rewriting, is a letter `c` followed by a
tail that passed the three pattern checks; what is returned is that tail
behind `c` itself (uppercase) or behind the byte `c + 32` (lowercase). -/
theorem SanitizeAbsolutePath_win32_shape (P r : Str)
    (h : SanitizeAbsolutePath .win32 P = .ok r) :
    ∃ (c v : Byte) (tail : Str),
      replace chBackslash chSlash P = c :: tail ∧ r = v :: tail ∧
      ((65 ≤ c.val ∧ c.val ≤ 90 ∧ v = c) ∨
        (97 ≤ c.val ∧ c.val ≤ 122 ∧ v.val = c.val + 32)) ∧
      List.count chDot (c :: tail) ≤ 1 ∧
      ¬ [chSlash, chSlash] <:+: c :: tail ∧
      ¬ [chDot, chSlash] <:+: c :: tail ∧
      ¬ [chSlash, chDot] <:+: c :: tail := by
  rw [SanitizeAbsolutePath_win32_ok_iff] at h
  obtain ⟨h1, h2, h3, h4, h5⟩ := h
  rw [← nrOfDots_replace] at h1
  generalize replace chBackslash chSlash P = rep at *
  cases rep with
  | nil =>
    rcases h5 with ⟨hl, _⟩ | ⟨hu, _⟩
    · exact absurd hl (by decide)
    · exact absurd hu (by decide)
  | cons c tail =>
    simp only [at0, List.headD_cons, setAt0] at h5
    rcases h5 with ⟨hl, hr⟩ | ⟨hu, hr⟩
    · have hc := (isLowerLetter_iff c).1 hl
      exact ⟨c, _, tail, rfl, hr, Or.inr ⟨hc.1, hc.2, toChar_lower_add c hc⟩, h1, h2, h3, h4⟩
    · have hc := (isUpperLetter_iff c).1 hu
      exact ⟨c, c, tail, rfl, hr, Or.inl ⟨hc.1, hc.2, rfl⟩, h1, h2, h3, h4⟩

/-- The first byte returned is none of the bytes below 'A', nor a backslash. -/
theorem shape_first_ne (c v x : Byte)
    (hv : (65 ≤ c.val ∧ c.val ≤ 90 ∧ v = c) ∨ (97 ≤ c.val ∧ c.val ≤ 122 ∧ v.val = c.val + 32))
    (hx : x.val < 65 ∨ x = chBackslash) : v ≠ x := by
  intro hvx
  have h92 : (chBackslash : Byte).val = 92 := rfl
  rcases hx with hx | hx
  · rcases hv with ⟨h1, _, h3⟩ | ⟨h1, _, h3⟩
    · rw [h3] at hvx
      rw [hvx] at h1
      omega
    · rw [hvx] at h3
      omega
  · rw [hx] at hvx
    rcases hv with ⟨_, h2, h3⟩ | ⟨h1, _, h3⟩
    · rw [h3] at hvx
      rw [hvx] at h2
      omega
    · rw [hvx] at h3
      omega

/-! ## Invariants of an accepted path -/

/-- C12: whenever the WIN32 body of `SanitizeAbsolutePath` returns normally, the
string it leaves has no backslash, none of "..", "./", "/." and "//", and at
most one '.'. -/
theorem SanitizeAbsolutePath_canonical_form (P r : Str)
    (h : SanitizeAbsolutePath .win32 P = .ok r) :
    chBackslash ∉ r ∧ ¬ [chDot, chDot] <:+: r ∧ ¬ [chDot, chSlash] <:+: r ∧
      ¬ [chSlash, chDot] <:+: r ∧ ¬ [chSlash, chSlash] <:+: r ∧
      List.count chDot r ≤ 1 := by
  obtain ⟨c, v, tail, hrep, hr, hv, h1, h2, h3, h4⟩ := SanitizeAbsolutePath_win32_shape P r h
  subst hr
  have hnb : chBackslash ∉ c :: tail := by
    rw [← hrep]
    exact not_mem_replace P
  have hpair : ∀ x y : Byte, x.val < 65 → ¬ [x, y] <:+: c :: tail →
      ¬ [x, y] <:+: v :: tail := by
    intro x y hx hn hi
    rw [pair_infix_cons_of_ne x y v tail (shape_first_ne c v x hv (Or.inl hx))] at hi
    exact hn ((pair_infix_cons x y c tail).2 (Or.inr hi))
  have hcount : List.count chDot (v :: tail) ≤ 1 := by
    rw [List.count_cons_of_ne (shape_first_ne c v chDot hv (Or.inl (by decide))).symm]
    have := List.count_le_count_cons chDot c tail
    omega
  refine ⟨?_, ?_, hpair _ _ (by decide) h3, hpair _ _ (by decide) h4,
    hpair _ _ (by decide) h2, hcount⟩
  · intro hm
    rcases List.mem_cons.1 hm with hm | hm
    · exact shape_first_ne c v chBackslash hv (Or.inr rfl) hm.symm
    · exact hnb (List.mem_cons_of_mem _ hm)
  · intro hi
    have h2le := hi.sublist.count_le chDot
    have h2 : List.count chDot [chDot, chDot] = 2 := by decide
    omega

/-- C12 at "c:\\root\\a.txt". -/
theorem SanitizeAbsolutePath_canonical_form_witness :
    chBackslash ∉ ((131 : Byte) :: ofString ":/root/a.txt") ∧
      ¬ [chDot, chDot] <:+: ((131 : Byte) :: ofString ":/root/a.txt") ∧
      ¬ [chDot, chSlash] <:+: ((131 : Byte) :: ofString ":/root/a.txt") ∧
      ¬ [chSlash, chDot] <:+: ((131 : Byte) :: ofString ":/root/a.txt") ∧
      ¬ [chSlash, chSlash] <:+: ((131 : Byte) :: ofString ":/root/a.txt") ∧
      List.count chDot ((131 : Byte) :: ofString ":/root/a.txt") ≤ 1 :=
  SanitizeAbsolutePath_canonical_form (ofString "c:\\root\\a.txt")
    ((131 : Byte) :: ofString ":/root/a.txt") (by decide)

/-- C13: the WIN32 body of `SanitizeAbsolutePath` returns strings holding bytes
above 127: "C:/" ++ [0xE9] ++ ".txt" is returned as it is (the loop comparing a
signed `char` with 127 never throws), and "c:/root/a.txt" is returned with the
byte 131 in front (the drive letter is raised by 32). -/
theorem SanitizeAbsolutePath_result_not_ascii :
    (∃ r, SanitizeAbsolutePath .win32 (ofString "C:/" ++ [(233 : Byte)] ++ ofString ".txt")
        = .ok r ∧ ∃ c ∈ r, c.val > 127) ∧
      (∃ r, SanitizeAbsolutePath .win32 (ofString "c:/root/a.txt") = .ok r ∧
        ∃ c ∈ r, c.val > 127) :=
  ⟨⟨ofString "C:/" ++ [(233 : Byte)] ++ ofString ".txt", by decide, by decide⟩,
   ⟨(131 : Byte) :: ofString ":/root/a.txt", by decide, by decide⟩⟩

/-- C14: the WIN32 body of `SanitizeAbsolutePath` returns strings without the
prefix "X:/": the one-character path "C" is returned as it is (length 1),
"Cab" is returned as it is (no ':' and '/' behind the letter), and
"c:/root/a.txt" comes back starting with the byte 131, which is no uppercase
letter. -/
theorem SanitizeAbsolutePath_no_drive_prefix :
    SanitizeAbsolutePath .win32 (ofString "C") = .ok (ofString "C") ∧
      (ofString "C").length < 3 ∧
      SanitizeAbsolutePath .win32 (ofString "Cab") = .ok (ofString "Cab") ∧
      ((ofString "Cab")[1]? ≠ some chColon ∧ (ofString "Cab")[2]? ≠ some chSlash) ∧
      (∃ r, SanitizeAbsolutePath .win32 (ofString "c:/root/a.txt") = .ok r ∧
        ¬ (65 ≤ (at0 r).val ∧ (at0 r).val ≤ 90)) :=
  ⟨by decide, by decide, by decide, by decide,
   ⟨(131 : Byte) :: ofString ":/root/a.txt", by decide, by decide⟩⟩

/-- C15: whenever the WIN32 body of `SanitizeAbsolutePath` returns normally, the
string it leaves has the length of the input and, at every index, holds the
input character, or '/' where the input holds a backslash, or the index is 0;
so an input without backslash whose first character is an uppercase letter is
returned unchanged. -/
theorem SanitizeAbsolutePath_frame (P r : Str)
    (h : SanitizeAbsolutePath .win32 P = .ok r) :
    r.length = P.length ∧
      (∀ i, i < P.length →
        r[i]? = P[i]? ∨ (P[i]? = some chBackslash ∧ r[i]? = some chSlash) ∨ i = 0) ∧
      (chBackslash ∉ P → (∃ c, P.head? = some c ∧ 65 ≤ c.val ∧ c.val ≤ 90) → r = P) := by
  obtain ⟨c, v, tail, hrep, hr, hv, _, _, _, _⟩ := SanitizeAbsolutePath_win32_shape P r h
  subst hr
  have hlen : (replace chBackslash chSlash P).length = P.length := by
    unfold replace
    rw [List.length_map]
  refine ⟨?_, ?_, ?_⟩
  · rw [← hlen, hrep]
    rfl
  · intro i hi
    cases i with
    | zero => exact Or.inr (Or.inr rfl)
    | succ j =>
      have h1 : (v :: tail)[j + 1]? = (replace chBackslash chSlash P)[j + 1]? := by
        rw [hrep]
        rfl
      have h2 : (replace chBackslash chSlash P)[j + 1]?
          = Option.map (fun c => if c = chBackslash then chSlash else c) P[j + 1]? := by
        unfold replace
        rw [List.getElem?_map]
      rw [h1, h2, List.getElem?_eq_getElem hi]
      simp only [Option.map_some']
      by_cases hb : P[j + 1] = chBackslash
      · right
        left
        rw [if_pos hb, hb]
        exact ⟨rfl, rfl⟩
      · left
        rw [if_neg hb]
  · intro hnb hup
    obtain ⟨d, hd, hd1, hd2⟩ := hup
    rw [replace_eq_self _ _ _ hnb] at hrep
    rw [hrep] at hd
    simp only [List.head?_cons, Option.some.injEq] at hd
    subst hd
    rcases hv with ⟨_, _, hvc⟩ | ⟨hl, _, _⟩
    · rw [hrep, hvc]
    · omega

/-- C15 at "C:\\root\\a.txt" (returned as "C:/root/a.txt"). -/
theorem SanitizeAbsolutePath_frame_witness :
    (ofString "C:/root/a.txt").length = (ofString "C:\\root\\a.txt").length ∧
      (∀ i, i < (ofString "C:\\root\\a.txt").length →
        (ofString "C:/root/a.txt")[i]? = (ofString "C:\\root\\a.txt")[i]? ∨
        ((ofString "C:\\root\\a.txt")[i]? = some chBackslash ∧
          (ofString "C:/root/a.txt")[i]? = some chSlash) ∨ i = 0) ∧
      (chBackslash ∉ ofString "C:\\root\\a.txt" →
        (∃ c, (ofString "C:\\root\\a.txt").head? = some c ∧ 65 ≤ c.val ∧ c.val ≤ 90) →
        ofString "C:/root/a.txt" = ofString "C:\\root\\a.txt") :=
  SanitizeAbsolutePath_frame (ofString "C:\\root\\a.txt") (ofString "C:/root/a.txt")
    (by decide)

/-! ## Directories and the constructor -/

/-- C11: for a path without '.', the directory flag is true,
`StemFromAbsolutePath` throws the no-stem failure and
`ExtensionFromAbsolutePath` throws the no-extension failure; for a path with a
'.', the directory flag is false. -/
theorem directory_of_no_dot (path : Str) :
    (chDot ∉ path →
        isDirectoryFlag path = true ∧
        StemFromAbsolutePath path = .error .noStemFound ∧
        ExtensionFromAbsolutePath path = .error .noExtensionFound) ∧
      (chDot ∈ path → isDirectoryFlag path = false) := by
  constructor
  · intro h
    have hi : List.indexOf chDot path = path.length := List.indexOf_eq_length.2 h
    refine ⟨?_, ?_, ?_⟩
    · unfold isDirectoryFlag
      rw [hi]
      simp
    · unfold StemFromAbsolutePath
      simp [hi]
    · unfold ExtensionFromAbsolutePath
      simp [hi]
  · intro h
    have hi : List.indexOf chDot path ≠ path.length := fun he => List.indexOf_eq_length.1 he h
    unfold isDirectoryFlag
    simp [hi]

/-- C11 at "C:/root/sub/dir" (no dot) and at "C:/root/sub/file.txt" (a dot). -/
theorem directory_of_no_dot_witness :
    (isDirectoryFlag (ofString "C:/root/sub/dir") = true ∧
        StemFromAbsolutePath (ofString "C:/root/sub/dir") = .error .noStemFound ∧
        ExtensionFromAbsolutePath (ofString "C:/root/sub/dir") = .error .noExtensionFound) ∧
      isDirectoryFlag (ofString "C:/root/sub/file.txt") = false :=
  ⟨(directory_of_no_dot (ofString "C:/root/sub/dir")).1 (by decide),
   (directory_of_no_dot (ofString "C:/root/sub/file.txt")).2 (by decide)⟩

/-- What a successful construction went through. -/
theorem Path_Path_ok (pf : Platform) (absolutePath rootDir : Str) (p : Path)
    (h : Path.Path pf absolutePath rootDir = .ok p) :
    SanitizeAbsolutePath pf absolutePath = .ok p.str_ ∧
      RelativePathFromAbsolutePath p.str_ rootDir = .ok p.relative_ ∧
      StemFromAbsolutePath p.str_ = .ok p.stem_ ∧
      ExtensionFromAbsolutePath p.str_ = .ok p.extension_ ∧
      p.rootDir_ = rootDir ∧
      p.isDirectory_ = isDirectoryFlag absolutePath := by
  unfold Path.Path at h
  cases hs : SanitizeAbsolutePath pf absolutePath with
  | error e => rw [hs] at h; simp at h
  | ok str =>
    rw [hs] at h
    simp only at h
    cases hr : RelativePathFromAbsolutePath str rootDir with
    | error e => rw [hr] at h; simp at h
    | ok rel =>
      rw [hr] at h
      simp only at h
      cases hst : StemFromAbsolutePath str with
      | error e => rw [hst] at h; simp at h
      | ok stem =>
        rw [hst] at h
        simp only at h
        cases he : ExtensionFromAbsolutePath str with
        | error e => rw [he] at h; simp at h
        | ok ext =>
          rw [he] at h
          simp only [Except.ok.injEq] at h
          subst h
          exact ⟨rfl, hr, hst, he, rfl, rfl⟩

/-- A path from which an extension was extracted has a '.'. -/
theorem mem_dot_of_Extension_ok (path ext : Str)
    (h : ExtensionFromAbsolutePath path = .ok ext) : chDot ∈ path := by
  unfold ExtensionFromAbsolutePath at h
  by_cases hi : List.indexOf chDot path = path.length
  · simp [hi] at h
  · by_contra hn
    exact hi (List.indexOf_eq_length.2 hn)

/-- `SanitizeAbsolutePath` puts no '.' into a path. -/
theorem mem_dot_of_Sanitize_ok (pf : Platform) (absolutePath str : Str)
    (h : SanitizeAbsolutePath pf absolutePath = .ok str) (hd : chDot ∈ str) :
    chDot ∈ absolutePath := by
  cases pf with
  | win32 =>
    obtain ⟨c, v, tail, hrep, hr, hv, _, _, _, _⟩ :=
      SanitizeAbsolutePath_win32_shape absolutePath str h
    subst hr
    have hm : chDot ∈ replace chBackslash chSlash absolutePath := by
      rw [hrep]
      rcases List.mem_cons.1 hd with hd | hd
      · exact absurd hd.symm (shape_first_ne c v chDot hv (Or.inl (by decide)))
      · exact List.mem_cons_of_mem _ hd
    unfold replace at hm
    rw [List.mem_map] at hm
    obtain ⟨x, hx, hxe⟩ := hm
    by_cases hb : x = chBackslash
    · rw [if_pos hb] at hxe
      exact absurd hxe (by decide)
    · rw [if_neg hb] at hxe
      rw [← hxe]
      exact hx
  | linux => simp [SanitizeAbsolutePath] at h
  | other =>
    simp only [SanitizeAbsolutePath, Except.ok.injEq] at h
    rw [h]
    exact hd

/-- C16: whenever the constructor succeeds, the relative string it stores is a
suffix of the absolute string it stores and is not empty (also when `rootDir`
is empty). -/
theorem Path_relative_suffix_nonempty (pf : Platform) (absolutePath rootDir : Str) (p : Path)
    (h : Path.Path pf absolutePath rootDir = .ok p) :
    p.relative_ <:+ p.str_ ∧ p.relative_ ≠ [] := by
  obtain ⟨_, hr, _, he, _, _⟩ := Path_Path_ok pf absolutePath rootDir p h
  have hne : p.str_ ≠ [] := List.ne_nil_of_mem (mem_dot_of_Extension_ok _ _ he)
  unfold RelativePathFromAbsolutePath at hr
  cases hf : find rootDir p.str_ with
  | none => rw [hf] at hr; simp at hr
  | some i =>
    rw [hf] at hr
    simp only [Except.ok.injEq] at hr
    obtain ⟨_, h2, h3⟩ := find_eq_some rootDir p.str_ i hf
    have ht : List.take (p.str_.length - i) (List.drop i p.str_) = List.drop i p.str_ :=
      List.take_of_length_le (by simp)
    rw [ht] at hr
    rw [← hr]
    refine ⟨List.drop_suffix i p.str_, ?_⟩
    intro hnil
    rw [hnil] at h2
    have hroot : rootDir = [] := List.prefix_nil.1 h2
    cases i with
    | zero => exact hne (by simpa using hnil)
    | succ j =>
      apply h3 0 (Nat.succ_pos j)
      rw [hroot]
      exact List.nil_prefix

/-- C16 at "C:/root/sub/file.txt" with the empty rootDir. -/
theorem Path_relative_suffix_nonempty_witness :
    ofString "C:/root/sub/file.txt" <:+ ofString "C:/root/sub/file.txt" ∧
      ofString "C:/root/sub/file.txt" ≠ [] :=
  Path_relative_suffix_nonempty .win32 (ofString "C:/root/sub/file.txt") []
    { str_ := ofString "C:/root/sub/file.txt", rootDir_ := [],
      relative_ := ofString "C:/root/sub/file.txt", stem_ := ofString "file",
      extension_ := ofString ".txt", isDirectory_ := false }
    (by decide)

/-- C19: whenever the constructor succeeds the directory flag it stores is
false, and for an absolute path without '.' the constructor fails. -/
theorem Path_never_directory (pf : Platform) (absolutePath rootDir : Str) :
    (∀ p, Path.Path pf absolutePath rootDir = .ok p → p.isDirectory_ = false) ∧
      (chDot ∉ absolutePath → ∃ e, Path.Path pf absolutePath rootDir = .error e) := by
  have key : ∀ p, Path.Path pf absolutePath rootDir = .ok p → chDot ∈ absolutePath := by
    intro p hp
    obtain ⟨hs, _, _, he, _, _⟩ := Path_Path_ok pf absolutePath rootDir p hp
    exact mem_dot_of_Sanitize_ok pf absolutePath p.str_ hs (mem_dot_of_Extension_ok _ _ he)
  constructor
  · intro p hp
    obtain ⟨_, _, _, _, _, hflag⟩ := Path_Path_ok pf absolutePath rootDir p hp
    have hi : List.indexOf chDot absolutePath ≠ absolutePath.length :=
      fun he => List.indexOf_eq_length.1 he (key p hp)
    rw [hflag]
    unfold isDirectoryFlag
    simp [hi]
  · intro hn
    cases hp : Path.Path pf absolutePath rootDir with
    | error e => exact ⟨e, rfl⟩
    | ok p => exact absurd (key p hp) hn

/-- C19 at "C:/root/sub/file.txt" (constructed, flag false) and at
"C:/root/sub/dir" (not constructed), both with rootDir "root". -/
theorem Path_never_directory_witness :
    (({ str_ := ofString "C:/root/sub/file.txt", rootDir_ := ofString "root",
        relative_ := ofString "root/sub/file.txt", stem_ := ofString "file",
        extension_ := ofString ".txt", isDirectory_ := false } : Path).isDirectory_ = false) ∧
      ∃ e, Path.Path .win32 (ofString "C:/root/sub/dir") (ofString "root") = .error e :=
  ⟨(Path_never_directory .win32 (ofString "C:/root/sub/file.txt") (ofString "root")).1 _
      (by decide),
   (Path_never_directory .win32 (ofString "C:/root/sub/dir") (ofString "root")).2
      (by decide)⟩

/-! ## Rules that are declared only -/

/-- C17: "C:/a/a/f.txt" has the directory name "a" twice and passes every check
of the WIN32 body of `SanitizeAbsolutePath`, which returns it as it is: the
body ends at the comment announcing the duplicate-directory check. -/
theorem SanitizeAbsolutePath_accepts_duplicate_directories :
    ofString "C:/a/a/f.txt"
        = windowsPath (67 : Byte) [ofString "a", ofString "a"] (ofString "f") (ofString "txt") ∧
      ¬ [ofString "a", ofString "a"].Nodup ∧
      SanitizeAbsolutePath .win32 (ofString "C:/a/a/f.txt") = .ok (ofString "C:/a/a/f.txt") := by
  decide

/-- C18: under `__linux__` the body of `SanitizeAbsolutePath` is the single
statement `throw std::runtime_error("Implement this.")`: every path fails, the
path "/root/a.txt" with its leading '/' included. -/
theorem SanitizeAbsolutePath_linux_not_implemented :
    (∀ path : Str, SanitizeAbsolutePath .linux path = .error .notImplemented) ∧
      (ofString "/root/a.txt").head? = some chSlash ∧
      SanitizeAbsolutePath .linux (ofString "/root/a.txt") = .error .notImplemented :=
  ⟨fun _ => rfl, by decide, by decide⟩

/-! ## Range of the stem -/

theorem not_mem_take_indexOf (a : Byte) (l : Str) : a ∉ List.take (List.indexOf a l) l := by
  induction l with
  | nil => simp
  | cons c cs ih =>
    by_cases hc : c = a
    · rw [hc, List.indexOf_cons_self]
      simp
    · rw [List.indexOf_cons_ne _ hc, List.take_succ_cons]
      intro hm
      rcases List.mem_cons.1 hm with hm | hm
      · exact hc hm.symm
      · exact ih hm

/-- Whatever `StemFromAbsolutePath` returns holds neither '.' nor '/'. -/
theorem StemFromAbsolutePath_ok_clean (path stem : Str)
    (h : StemFromAbsolutePath path = .ok stem) : chDot ∉ stem ∧ chSlash ∉ stem := by
  unfold StemFromAbsolutePath at h
  simp only at h
  split at h
  · simp at h
  · rename_i hcond
    split at h
    · simp only [Except.ok.injEq] at h
      have hk : List.indexOf chSlash path.reverse < path.length := by
        have := @List.indexOf_le_length _ _ chSlash path.reverse
        rw [List.length_reverse] at this
        omega
      have hb : path.length - 1 - List.indexOf chSlash path.reverse + 1
          = path.length - List.indexOf chSlash path.reverse := by omega
      rw [hb] at h
      constructor
      · intro hm
        rw [← h, ← List.drop_take] at hm
        exact not_mem_take_indexOf chDot path (List.mem_of_mem_drop hm)
      · intro hm
        rw [← h] at hm
        have hm2 : chSlash ∈ List.drop (path.length - List.indexOf chSlash path.reverse) path :=
          List.mem_of_mem_take hm
        have htr := @List.take_reverse _ path (List.indexOf chSlash path.reverse)
        have hm3 : chSlash ∈ List.take (List.indexOf chSlash path.reverse) path.reverse := by
          rw [htr]
          exact List.mem_reverse.2 hm2
        exact not_mem_take_indexOf chSlash path.reverse hm3
    · simp at h

/-- C20: "C:/a.b/c" is accepted by the WIN32 body of `SanitizeAbsolutePath` and
holds both a '.' and a '/', yet `StemFromAbsolutePath` computes the start
offset 7 (last '/' at 6) and the end offset 4 (first '.'), a range whose start
lies past its end. -/
theorem StemFromAbsolutePath_range_reversed :
    SanitizeAbsolutePath .win32 (ofString "C:/a.b/c") = .ok (ofString "C:/a.b/c") ∧
      chDot ∈ ofString "C:/a.b/c" ∧ chSlash ∈ ofString "C:/a.b/c" ∧
      ((ofString "C:/a.b/c").length - 1
          - List.indexOf chSlash (ofString "C:/a.b/c").reverse) + 1 = 7 ∧
      List.indexOf chDot (ofString "C:/a.b/c") = 4 ∧
      StemFromAbsolutePath (ofString "C:/a.b/c") = .error .invalidRange := by
  decide

end Scout
